import Mathlib

/-!
Shallow embedding of the epoch stake-table core of
`types/src/v0/impls/stake_table.rs`.

Modelling conventions:
* 160-bit addresses and the two kinds of public keys are identified by `Nat`.
* `U256` values are modelled as `Nat`; the `alloy`/`ruint` arithmetic
  operators abort on overflow rather than wrap, so additions that the Rust
  code performs unchecked are modelled with an explicit overflow outcome
  (`ApplyResult.overflow`), and `checked_sub` / `checked_div` are modelled
  with explicit comparisons.
* `IndexMap` (insertion ordered, unique keys) is modelled as an association
  list; `HashSet` is modelled as a list whose order is never observed.
* The V2 events carry signatures that are checked by `authenticate()`; the
  cryptography is external to this file, so each V2 event carries the
  boolean outcome of its authentication check (`auth_ok`).
-/

/-- Block explorer log locator: `alloy` logs carry optional block number and
log index fields. -/
structure Log where
  block_number : Option Nat
  log_index : Option Nat
deriving DecidableEq, Repr

/-- Payload of a `ValidatorRegistered` (v1) event. -/
structure ValidatorRegistered where
  account : Nat
  blsVk : Nat
  schnorrVk : Nat
  commission : Nat
deriving DecidableEq, Repr

/-- Payload of a `ValidatorRegisteredV2` event; `auth_ok` is the outcome of
the external `authenticate()` signature check. -/
structure ValidatorRegisteredV2 where
  account : Nat
  blsVK : Nat
  schnorrVK : Nat
  commission : Nat
  auth_ok : Bool
deriving DecidableEq, Repr

/-- Payload of a `ValidatorExit` event. -/
structure ValidatorExit where
  validator : Nat
deriving DecidableEq, Repr

/-- Payload of a `Delegated` event. -/
structure Delegated where
  delegator : Nat
  validator : Nat
  amount : Nat
deriving DecidableEq, Repr

/-- Payload of an `Undelegated` event. -/
structure Undelegated where
  delegator : Nat
  validator : Nat
  amount : Nat
deriving DecidableEq, Repr

/-- Payload of a `ConsensusKeysUpdated` (v1) event. -/
structure ConsensusKeysUpdated where
  account : Nat
  blsVK : Nat
  schnorrVK : Nat
deriving DecidableEq, Repr

/-- Payload of a `ConsensusKeysUpdatedV2` event; `auth_ok` is the outcome of
the external `authenticate()` signature check. -/
structure ConsensusKeysUpdatedV2 where
  account : Nat
  blsVK : Nat
  schnorrVK : Nat
  auth_ok : Bool
deriving DecidableEq, Repr

/-- The tagged event type `StakeTableEvent`. -/
inductive StakeTableEvent where
  | Register (d : ValidatorRegistered)
  | RegisterV2 (d : ValidatorRegisteredV2)
  | Deregister (d : ValidatorExit)
  | Delegate (d : Delegated)
  | Undelegate (d : Undelegated)
  | KeyUpdate (d : ConsensusKeysUpdated)
  | KeyUpdateV2 (d : ConsensusKeysUpdatedV2)
deriving DecidableEq, Repr

/-- Fatal errors of the state machine (`StakeTableError`). String payloads of
the Rust enum are replaced by the offending value itself. -/
inductive StakeTableError where
  | AlreadyRegistered (account : Nat)
  | BlsKeyAlreadyUsed (key : Nat)
  | ValidatorNotFound (account : Nat)
  | ZeroDelegatorStake (delegator : Nat)
  | InsufficientStake
  | DelegatorNotFound (delegator : Nat)
  | AuthenticationFailed
  | NoValidValidators
  | MissingMaximumStake
  | MinimumStakeOverflow
deriving DecidableEq, Repr

/-- Expected (non-fatal) errors of the state machine
(`ExpectedStakeTableError`). -/
inductive ExpectedStakeTableError where
  | SchnorrKeyAlreadyUsed (key : Nat)
deriving DecidableEq, Repr

/-- One validator entry of the stake table (`Validator<BLSPubKey>`). The
delegator `HashMap` is an association list from delegator address to its
stake. -/
structure Validator where
  account : Nat
  stake_table_key : Nat
  state_ver_key : Nat
  stake : Nat
  commission : Nat
  delegators : List (Nat × Nat)
deriving DecidableEq, Repr

/-- Insertion-ordered map from account address to validator (`IndexMap`). -/
abbrev ValidatorMap : Type := List (Nat × Validator)

/-- First-match lookup in an association list (unique keys by construction,
mirroring `IndexMap::get`). -/
def lookupVal : List (Nat × Validator) → Nat → Option Validator
  | [], _ => none
  | (a, v) :: rest, account => if a = account then some v else lookupVal rest account

/-- Modify the entry with the given key in place (`IndexMap::get_mut`). -/
def modifyVal : List (Nat × Validator) → Nat → (Validator → Validator) → List (Nat × Validator)
  | [], _, _ => []
  | (a, v) :: rest, account, f =>
    if a = account then (a, f v) :: rest else (a, v) :: modifyVal rest account f

/-- Remove the entry with the given key, keeping the order of the remaining
entries (`IndexMap::shift_remove`). -/
def removeVal : List (Nat × Validator) → Nat → List (Nat × Validator)
  | [], _ => []
  | (a, v) :: rest, account => if a = account then rest else (a, v) :: removeVal rest account

/-- First-match lookup of a delegator's stake (`HashMap::get`). -/
def lookupDelegator : List (Nat × Nat) → Nat → Option Nat
  | [], _ => none
  | (d, o) :: rest, delegator => if d = delegator then some o else lookupDelegator rest delegator

/-- Add `amount` to the delegator's entry, inserting it if absent
(`entry(..).and_modify(..).or_insert(..)`). -/
def addDelegator : List (Nat × Nat) → Nat → Nat → List (Nat × Nat)
  | [], delegator, amount => [(delegator, amount)]
  | (d, o) :: rest, delegator, amount =>
    if d = delegator then (d, o + amount) :: rest
    else (d, o) :: addDelegator rest delegator amount

/-- Subtract `amount` from the delegator's entry, removing the entry when its
stake reaches zero. -/
def subDelegator : List (Nat × Nat) → Nat → Nat → List (Nat × Nat)
  | [], _, _ => []
  | (d, o) :: rest, delegator, amount =>
    if d = delegator then
      (if o - amount = 0 then rest else (d, o - amount) :: rest)
    else (d, o) :: subDelegator rest delegator amount

/-- The reconstructed authoritative state (`StakeTableState`): the validator
map plus the two sets of globally used keys. -/
structure StakeTableState where
  validators : List (Nat × Validator)
  used_bls_keys : List Nat
  used_schnorr_keys : List Nat
deriving DecidableEq, Repr

/-- Fresh empty state (`StakeTableState::new`). -/
def StakeTableState.new : StakeTableState :=
  { validators := [], used_bls_keys := [], used_schnorr_keys := [] }

/-- Outcome of `apply_event`: the Rust signature is
`Result<Result<(), ExpectedStakeTableError>, StakeTableError>` on `&mut self`;
`expected` and `ok` carry the mutated state, `fatal` aborts the fold, and
`overflow` marks an aborting `U256` arithmetic overflow. -/
inductive ApplyResult (σ : Type) where
  | fatal (e : StakeTableError)
  | expected (e : ExpectedStakeTableError) (s : σ)
  | ok (s : σ)
  | overflow
deriving DecidableEq, Repr

/-- Bound of 256-bit unsigned arithmetic (`U256::MAX`). -/
def U256_MAX : Nat := 2 ^ 256 - 1

/-- Transition function `StakeTableState::apply_event`, translated arm by arm
from the Rust `match`. -/
def StakeTableState.apply_event (s : StakeTableState) (event : StakeTableEvent) :
    ApplyResult StakeTableState :=
  match event with
  | .Register d =>
    if (lookupVal s.validators d.account).isSome then
      .fatal (.AlreadyRegistered d.account)
    else if d.blsVk ∈ s.used_bls_keys then
      .fatal (.BlsKeyAlreadyUsed d.blsVk)
    else
      let s1 : StakeTableState := { s with used_bls_keys := d.blsVk :: s.used_bls_keys }
      if d.schnorrVk ∈ s1.used_schnorr_keys then
        .expected (.SchnorrKeyAlreadyUsed d.schnorrVk) s1
      else
        .ok { s1 with
              used_schnorr_keys := d.schnorrVk :: s1.used_schnorr_keys,
              validators := s1.validators ++
                [(d.account,
                  { account := d.account, stake_table_key := d.blsVk,
                    state_ver_key := d.schnorrVk, stake := 0,
                    commission := d.commission, delegators := [] })] }
  | .RegisterV2 d =>
    if !d.auth_ok then
      .fatal .AuthenticationFailed
    else if (lookupVal s.validators d.account).isSome then
      .fatal (.AlreadyRegistered d.account)
    else if d.blsVK ∈ s.used_bls_keys then
      .fatal (.BlsKeyAlreadyUsed d.blsVK)
    else
      let s1 : StakeTableState := { s with used_bls_keys := d.blsVK :: s.used_bls_keys }
      if d.schnorrVK ∈ s1.used_schnorr_keys then
        .expected (.SchnorrKeyAlreadyUsed d.schnorrVK) s1
      else
        .ok { s1 with
              used_schnorr_keys := d.schnorrVK :: s1.used_schnorr_keys,
              validators := s1.validators ++
                [(d.account,
                  { account := d.account, stake_table_key := d.blsVK,
                    state_ver_key := d.schnorrVK, stake := 0,
                    commission := d.commission, delegators := [] })] }
  | .Deregister d =>
    if (lookupVal s.validators d.validator).isSome then
      .ok { s with validators := removeVal s.validators d.validator }
    else
      .fatal (.ValidatorNotFound d.validator)
  | .Delegate d =>
    match lookupVal s.validators d.validator with
    | none => .fatal (.ValidatorNotFound d.validator)
    | some v =>
      if d.amount = 0 then
        .fatal (.ZeroDelegatorStake d.delegator)
      else if U256_MAX < v.stake + d.amount then
        .overflow
      else
        match lookupDelegator v.delegators d.delegator with
        | some o =>
          if U256_MAX < o + d.amount then
            .overflow
          else
            .ok { s with validators := modifyVal s.validators d.validator fun v =>
                  { v with stake := v.stake + d.amount,
                           delegators := addDelegator v.delegators d.delegator d.amount } }
        | none =>
          .ok { s with validators := modifyVal s.validators d.validator fun v =>
                { v with stake := v.stake + d.amount,
                         delegators := addDelegator v.delegators d.delegator d.amount } }
  | .Undelegate d =>
    match lookupVal s.validators d.validator with
    | none => .fatal (.ValidatorNotFound d.validator)
    | some v =>
      if v.stake < d.amount then
        .fatal .InsufficientStake
      else
        match lookupDelegator v.delegators d.delegator with
        | none => .fatal (.DelegatorNotFound d.delegator)
        | some o =>
          if o < d.amount then
            .fatal .InsufficientStake
          else
            .ok { s with validators := modifyVal s.validators d.validator fun v =>
                  { v with stake := v.stake - d.amount,
                           delegators := subDelegator v.delegators d.delegator d.amount } }
  | .KeyUpdate d =>
    match lookupVal s.validators d.account with
    | none => .fatal (.ValidatorNotFound d.account)
    | some _ =>
      if d.blsVK ∈ s.used_bls_keys then
        .fatal (.BlsKeyAlreadyUsed d.blsVK)
      else
        let s1 : StakeTableState := { s with used_bls_keys := d.blsVK :: s.used_bls_keys }
        if d.schnorrVK ∈ s1.used_schnorr_keys then
          .expected (.SchnorrKeyAlreadyUsed d.schnorrVK) s1
        else
          .ok { s1 with
                used_schnorr_keys := d.schnorrVK :: s1.used_schnorr_keys,
                validators := modifyVal s1.validators d.account fun v =>
                  { v with stake_table_key := d.blsVK, state_ver_key := d.schnorrVK } }
  | .KeyUpdateV2 d =>
    if !d.auth_ok then
      .fatal .AuthenticationFailed
    else
      match lookupVal s.validators d.account with
      | none => .fatal (.ValidatorNotFound d.account)
      | some _ =>
        if d.blsVK ∈ s.used_bls_keys then
          .fatal (.BlsKeyAlreadyUsed d.blsVK)
        else
          let s1 : StakeTableState := { s with used_bls_keys := d.blsVK :: s.used_bls_keys }
          if d.schnorrVK ∈ s1.used_schnorr_keys then
            .expected (.SchnorrKeyAlreadyUsed d.schnorrVK) s1
          else
            .ok { s1 with
                  used_schnorr_keys := d.schnorrVK :: s1.used_schnorr_keys,
                  validators := modifyVal s1.validators d.account fun v =>
                    { v with stake_table_key := d.blsVK, state_ver_key := d.schnorrVK } }

/-- Result of folding an event stream: either the final state, a fatal error,
or an aborting arithmetic overflow. -/
inductive FoldResult (α : Type) where
  | ok (a : α)
  | fatal (e : StakeTableError)
  | overflow
deriving DecidableEq, Repr

/-- Fold of `apply_event` over an ordered event list: expected errors are
logged and skipped, fatal errors abort. -/
def foldEvents : StakeTableState → List StakeTableEvent → FoldResult StakeTableState
  | s, [] => .ok s
  | s, e :: rest =>
    match s.apply_event e with
    | .ok s1 => foldEvents s1 rest
    | .expected _ s1 => foldEvents s1 rest
    | .fatal err => .fatal err
    | .overflow => .overflow

/-- The event fold `validators_from_l1_events`, returning the resulting
validator map. -/
def validators_from_l1_events (events : List StakeTableEvent) : FoldResult ValidatorMap :=
  match foldEvents StakeTableState.new events with
  | .ok s => .ok s.validators
  | .fatal e => .fatal e
  | .overflow => .overflow

/-- Modelled from the spec: `VID_TARGET_TOTAL_STAKE` is a compile-time domain
constant imported from `hotshot_types::data::vid_disperse`, whose definition
is outside the sources of this repository. The claims constrain the selection
only relative to it; its concrete value is irrelevant to the theorems below
beyond being nonzero. -/
def VID_TARGET_TOTAL_STAKE : Nat := 1000

/-- Checked `U256` division (`checked_div`): `none` exactly when the divisor
is zero. -/
def u256CheckedDiv (a b : Nat) : Option Nat :=
  if b = 0 then none else some (a / b)

/-- Validators surviving the first `retain` of `select_active_validator_set`:
a validator is kept when it has at least one delegator and nonzero stake. -/
def retainValid (validators : List (Nat × Validator)) : List (Nat × Validator) :=
  validators.filter fun p => !p.2.delegators.isEmpty && !(p.2.stake == 0)

/-- Maximum stake over a validator list (`values().map(|v| v.stake).max()`),
defaulting to `0` on the empty list. -/
def maxStakeOf (validators : List (Nat × Validator)) : Nat :=
  ((validators.map fun p => p.2.stake).max?).getD 0

/-- Descending comparison on `(address, stake)` pairs used by
`sort_by_key(|(_, stake)| Reverse(*stake))`. -/
def stakeGe (a b : Nat × Nat) : Prop := b.2 ≤ a.2

instance : DecidableRel stakeGe := fun a b => Nat.decLe b.2 a.2

/-- The pure counterpart of `select_active_validator_set(&mut validators)`:
prune zero-stake / delegator-less validators, compute the minimum stake
threshold from the maximum, keep validators above it, stable-sort descending
by stake, truncate to 100 and retain the selected addresses in map order. -/
def select_active_validator_set (validators : List (Nat × Validator)) :
    Except StakeTableError (List (Nat × Validator)) :=
  let filtered := retainValid validators
  if filtered.isEmpty then
    .error .NoValidValidators
  else
    match (filtered.map fun p => p.2.stake).max? with
    | none => .error .MissingMaximumStake
    | some maximum_stake =>
      match u256CheckedDiv maximum_stake VID_TARGET_TOTAL_STAKE with
      | none => .error .MinimumStakeOverflow
      | some minimum_stake =>
        let valid_stakers :=
          (filtered.filter fun p => minimum_stake ≤ p.2.stake).map fun p => (p.1, p.2.stake)
        let sorted := List.insertionSort stakeGe valid_stakers
        let truncated := sorted.take 100
        let selected := truncated.map Prod.fst
        .ok (filtered.filter fun p => p.1 ∈ selected)

/-- A stake table entry as held by an eligible leader
(`StakeTableEntry<PubKey>`): the public key together with its stake. -/
structure StakeTableEntry where
  pubkey : Nat
  stake : Nat
deriving DecidableEq, Repr

/-- Peer configuration wrapper (`PeerConfig`), of which `lookup_leader` only
reads the `stake_table_entry` field. -/
structure PeerConfig where
  stake_table_entry : StakeTableEntry
deriving DecidableEq, Repr

/-- Modelled from the spec: `RandomizedCommittee` and
`select_randomized_leader` come from `hotshot_types::drb::election`, outside
the sources of this repository; per the spec it is a stake-weighted CDF over
the epoch's eligible-leader entries that answers `leader(view)`. We model it
as the induced selection function from view numbers to entries. -/
structure RandomizedCommittee where
  select : Nat → StakeTableEntry

/-- Modelled from the spec: `select_randomized_leader(committee, view)`
answers the committee's leader for the view. -/
def select_randomized_leader (committee : RandomizedCommittee) (view : Nat) : StakeTableEntry :=
  committee.select view

/-- Lookup in the `BTreeMap<Epoch, RandomizedCommittee>`. -/
def lookupRC : List (Nat × RandomizedCommittee) → Nat → Option RandomizedCommittee
  | [], _ => none
  | (e, rc) :: rest, epoch => if e = epoch then some rc else lookupRC rest epoch

/-- Unit error returned by leader lookups (`LeaderLookupError`). -/
inductive LeaderLookupError where
  | err
deriving DecidableEq, Repr

/-- The slice of `EpochCommittees` that `lookup_leader` and the threshold
functions read: the non-epoch committee's eligible leaders, the randomized
committees and the first epoch. -/
structure EpochCommittees where
  eligible_leaders : List PeerConfig
  randomized_committees : List (Nat × RandomizedCommittee)
  first_epoch : Option Nat

/-- Extract the public key from a stake table entry
(`PubKey::public_key(&entry)`). -/
def public_key (entry : StakeTableEntry) : Nat := entry.pubkey

/-- `EpochCommittees::lookup_leader`, translated arm by arm from the Rust
`match (self.first_epoch(), epoch)`. The outer `Option` models abortion:
`none` is the panic raised by `view % leaders.len()` when the eligible-leader
list is empty (remainder by zero). -/
def EpochCommittees.lookup_leader (c : EpochCommittees) (view_number : Nat)
    (epoch : Option Nat) : Option (Except LeaderLookupError Nat) :=
  match c.first_epoch, epoch with
  | some first_epoch, some e =>
    if e < first_epoch then
      some (.error .err)
    else
      match lookupRC c.randomized_committees e with
      | none => some (.error .err)
      | some randomized_committee =>
        some (.ok (public_key (select_randomized_leader randomized_committee view_number)))
  | _, none =>
    if c.eligible_leaders.length = 0 then
      none
    else
      let index := view_number % c.eligible_leaders.length
      some (.ok (public_key
        ((c.eligible_leaders.getD index ⟨⟨0, 0⟩⟩).stake_table_entry)))
  | none, some _ => some (.error .err)

/-- Checked `U256` multiplication: `none` on overflow (`ruint` arithmetic
aborts on overflow). -/
def u256CheckedMul (a b : Nat) : Option Nat :=
  if a * b ≤ U256_MAX then some (a * b) else none

/-- Checked `U256` addition: `none` on overflow. -/
def u256CheckedAdd (a b : Nat) : Option Nat :=
  if a + b ≤ U256_MAX then some (a + b) else none

/-- `EpochCommittees::success_threshold` on the total stake, with every
`U256` operation checked for overflow. -/
def success_threshold (total_stake : Nat) : Option Nat :=
  if total_stake < U256_MAX / 2 then
    (u256CheckedMul total_stake 2).bind fun t => u256CheckedAdd (t / 3) 1
  else
    (u256CheckedMul (total_stake / 3) 2).bind fun t => u256CheckedAdd t 2

/-- `EpochCommittees::failure_threshold` on the total stake. -/
def failure_threshold (total_stake : Nat) : Option Nat :=
  u256CheckedAdd (total_stake / 3) 1

/-- `EpochCommittees::upgrade_threshold` on the total stake: the maximum of
the success threshold and the guarded nine-tenths computation. -/
def upgrade_threshold (total_stake : Nat) : Option Nat :=
  (success_threshold total_stake).bind fun normal_threshold =>
    (if total_stake < U256_MAX / 9 then
      (u256CheckedMul total_stake 9).map fun t => t / 10
    else
      (u256CheckedMul (total_stake / 10) 9)).map
    fun higher_threshold => max higher_threshold normal_threshold

/-- Event key `(block_number, log_index)` — the canonical event order. -/
abbrev EventKey : Type := Nat × Nat

/-- Errors of event sorting (`EventSortingError`). -/
inductive EventSortingError where
  | MissingBlockNumber
  | MissingLogIndex
deriving DecidableEq, Repr

/-- Key extraction closure of `sort_events`: the block number is demanded
before the log index. -/
def logKey (log : Log) : Except EventSortingError EventKey :=
  match log.block_number with
  | none => .error .MissingBlockNumber
  | some block_number =>
    match log.log_index with
    | none => .error .MissingLogIndex
    | some log_index => .ok (block_number, log_index)

/-- The batched event aggregate `StakeTableEvents`: seven vectors of typed
events paired with their logs. -/
structure StakeTableEvents where
  registrations : List (ValidatorRegistered × Log)
  registrations_v2 : List (ValidatorRegisteredV2 × Log)
  deregistrations : List (ValidatorExit × Log)
  delegated : List (Delegated × Log)
  undelegated : List (Undelegated × Log)
  keys : List (ConsensusKeysUpdated × Log)
  keys_v2 : List (ConsensusKeysUpdatedV2 × Log)
deriving DecidableEq, Repr

/-- One `for` loop of `sort_events`: push each event of a batch with its key;
the `?` operator propagates the first key-extraction error. -/
def collectKeyed {α : Type} (into : α → StakeTableEvent) :
    List (α × Log) → Except EventSortingError (List (EventKey × StakeTableEvent))
  | [] => .ok []
  | (e, log) :: rest =>
    match logKey log with
    | .error err => .error err
    | .ok k =>
      match collectKeyed into rest with
      | .error err => .error err
      | .ok tail => .ok ((k, into e) :: tail)

/-- Lexicographic order on event keys (`Ord` of `(u64, u64)`). -/
def keyLe (a b : EventKey) : Prop :=
  a.1 < b.1 ∨ (a.1 = b.1 ∧ a.2 ≤ b.2)

instance : DecidableRel keyLe := fun a b => by
  unfold keyLe
  infer_instance

/-- Order on keyed events used by `events.sort_by_key(|(key, _)| *key)`:
compares the keys only. -/
def evLe (a b : EventKey × StakeTableEvent) : Prop := keyLe a.1 b.1

instance : DecidableRel evLe := fun a b => by
  unfold evLe
  infer_instance

instance : IsTotal (EventKey × StakeTableEvent) evLe where
  total a b := by
    unfold evLe keyLe
    omega

instance : IsTrans (EventKey × StakeTableEvent) evLe where
  trans a b c hab hbc := by
    unfold evLe keyLe at *
    omega

/-- Stable ascending sort by event key (`sort_by_key` is a stable sort). -/
def sortByKey (events : List (EventKey × StakeTableEvent)) :
    List (EventKey × StakeTableEvent) :=
  List.insertionSort evLe events

/-- `StakeTableEvents::sort_events`: push all seven batches in declaration
order (`?` propagating key-extraction errors), then stable-sort ascending by
`(block_number, log_index)`. -/
def StakeTableEvents.sort_events (self : StakeTableEvents) :
    Except EventSortingError (List (EventKey × StakeTableEvent)) :=
  match collectKeyed .Register self.registrations with
  | .error err => .error err
  | .ok r =>
  match collectKeyed .RegisterV2 self.registrations_v2 with
  | .error err => .error err
  | .ok r2 =>
  match collectKeyed .Deregister self.deregistrations with
  | .error err => .error err
  | .ok dereg =>
  match collectKeyed .Delegate self.delegated with
  | .error err => .error err
  | .ok del =>
  match collectKeyed .Undelegate self.undelegated with
  | .error err => .error err
  | .ok undel =>
  match collectKeyed .KeyUpdate self.keys with
  | .error err => .error err
  | .ok k =>
  match collectKeyed .KeyUpdateV2 self.keys_v2 with
  | .error err => .error err
  | .ok k2 => .ok (sortByKey (r ++ r2 ++ dereg ++ del ++ undel ++ k ++ k2))

/-- Adjacent deduplication (`Vec::dedup`): drops an element equal to its
predecessor, comparing whole `(EventKey, StakeTableEvent)` pairs. -/
def dedupAdj : List (EventKey × StakeTableEvent) → List (EventKey × StakeTableEvent)
  | [] => []
  | [a] => [a]
  | a :: b :: rest => if a = b then dedupAdj (b :: rest) else a :: dedupAdj (b :: rest)


/-- A validator is well-formed when its total stake equals the sum of its
delegator stakes and no delegator entry is zero. -/
def goodValidator (v : Validator) : Prop :=
  v.stake = (v.delegators.map Prod.snd).sum ∧ ∀ q ∈ v.delegators, q.2 ≠ 0

/-- State invariant of the fold: every validator in the map is
well-formed. -/
def stateInv (s : StakeTableState) : Prop :=
  ∀ p ∈ s.validators, goodValidator p.2


/-- A log that `sort_events` must reject: missing block number or missing
log index. -/
def badLog (log : Log) : Prop := log.block_number = none ∨ log.log_index = none

instance : DecidablePred badLog := fun log => by
  unfold badLog
  infer_instance

def keyOf (log : Log) : EventKey := (log.block_number.getD 0, log.log_index.getD 0)

def allLogs (st : StakeTableEvents) : List Log :=
  st.registrations.map Prod.snd ++ st.registrations_v2.map Prod.snd ++
  st.deregistrations.map Prod.snd ++ st.delegated.map Prod.snd ++
  st.undelegated.map Prod.snd ++ st.keys.map Prod.snd ++ st.keys_v2.map Prod.snd

def keyedEvents (st : StakeTableEvents) : List (EventKey × StakeTableEvent) :=
  (st.registrations.map fun p => (keyOf p.2, .Register p.1)) ++
  (st.registrations_v2.map fun p => (keyOf p.2, .RegisterV2 p.1)) ++
  (st.deregistrations.map fun p => (keyOf p.2, .Deregister p.1)) ++
  (st.delegated.map fun p => (keyOf p.2, .Delegate p.1)) ++
  (st.undelegated.map fun p => (keyOf p.2, .Undelegate p.1)) ++
  (st.keys.map fun p => (keyOf p.2, .KeyUpdate p.1)) ++
  (st.keys_v2.map fun p => (keyOf p.2, .KeyUpdateV2 p.1))



/-- Strict lexicographic order on event keys. -/
def keyLt (a b : EventKey) : Prop :=
  a.1 < b.1 ∨ (a.1 = b.1 ∧ a.2 < b.2)

def evLt (a b : EventKey × StakeTableEvent) : Prop := keyLt a.1 b.1

instance : IsTrans (EventKey × StakeTableEvent) evLt where
  trans a b c hab hbc := by
    unfold evLt keyLt at *
    omega

instance : IsAntisymm (EventKey × StakeTableEvent) evLt where
  antisymm a b hab hba := by
    unfold evLt keyLt at *
    omega

def KeyDet (l : List (EventKey × StakeTableEvent)) : Prop :=
  ∀ p ∈ l, ∀ q ∈ l, p.1 = q.1 → p = q


/-- C10: `lookup_leader(view, None)` indexes the non-epoch committee's
eligible leaders as `leaders[view mod leaders.len()]` without guarding
against an empty list: for every view, if `eligible_leaders` is empty the
call panics (remainder by zero) instead of returning a `LeaderLookupError`,
and with a non-empty list it returns a leader, so the non-epoch branch is
total exactly under the precondition that `eligible_leaders` is
non-empty. -/
theorem claim_C10_lookup_leader_empty_leaders_panics (c : EpochCommittees) (view : Nat) :
    (c.eligible_leaders = [] → c.lookup_leader view none = none) ∧
    (c.eligible_leaders ≠ [] →
      c.lookup_leader view none =
        some (.ok (public_key
          ((c.eligible_leaders.getD (view % c.eligible_leaders.length)
            ⟨⟨0, 0⟩⟩).stake_table_entry)))) := by
  constructor
  · intro h
    unfold EpochCommittees.lookup_leader
    cases hfe : c.first_epoch <;> simp [h]
  · intro h
    unfold EpochCommittees.lookup_leader
    cases hfe : c.first_epoch <;>
      simp [List.length_eq_zero, h]

/-- Witness for C10 at concrete committees: an empty eligible-leader list
makes the non-epoch lookup panic, a singleton list yields its leader. -/
theorem claim_C10_witness :
    EpochCommittees.lookup_leader
      { eligible_leaders := [], randomized_committees := [], first_epoch := some 1 } 3 none
      = none ∧
    EpochCommittees.lookup_leader
      { eligible_leaders := [⟨⟨7, 5⟩⟩], randomized_committees := [], first_epoch := none } 3 none
      = some (.ok 7) :=
  ⟨(claim_C10_lookup_leader_empty_leaders_panics _ 3).1 rfl,
   (claim_C10_lookup_leader_empty_leaders_panics _ 3).2 (by simp)⟩

/-- C2 counterexample: with `first_epoch = some 1` and `epoch = none`, the
code still selects from the non-epoch committee and returns a leader, where
the claim demands a `LeaderLookupError` for this combination. -/
theorem claim_C2_counterexample :
    EpochCommittees.first_epoch
      { eligible_leaders := [⟨⟨7, 5⟩⟩], randomized_committees := [], first_epoch := some 1 }
      = some 1 ∧
    EpochCommittees.lookup_leader
      { eligible_leaders := [⟨⟨7, 5⟩⟩], randomized_committees := [], first_epoch := some 1 }
      5 none
      = some (.ok 7) :=
  ⟨rfl, rfl⟩

/-- C2 (amended): `lookup_leader(view, None)` selects
`leaders[view mod n]` from the non-epoch committee whenever the queried
epoch is `None`, regardless of whether `first_epoch` is set; when
`first_epoch` and the queried epoch are both present it requires
`epoch ≥ first_epoch` and a randomized committee for that epoch (returning
its randomized leader) and returns a `LeaderLookupError` otherwise; querying
an epoch when `first_epoch` is `None` returns a `LeaderLookupError`. -/
theorem claim_C2_amended_lookup_leader_cases (c : EpochCommittees) (view : Nat) :
    (c.first_epoch = none → ∀ e, c.lookup_leader view (some e) = some (.error .err)) ∧
    (∀ fe e, c.first_epoch = some fe → e < fe →
      c.lookup_leader view (some e) = some (.error .err)) ∧
    (∀ fe e, c.first_epoch = some fe → fe ≤ e → lookupRC c.randomized_committees e = none →
      c.lookup_leader view (some e) = some (.error .err)) ∧
    (∀ fe e rc, c.first_epoch = some fe → fe ≤ e →
      lookupRC c.randomized_committees e = some rc →
      c.lookup_leader view (some e) =
        some (.ok (public_key (select_randomized_leader rc view)))) ∧
    (c.eligible_leaders ≠ [] →
      c.lookup_leader view none =
        some (.ok (public_key
          ((c.eligible_leaders.getD (view % c.eligible_leaders.length)
            ⟨⟨0, 0⟩⟩).stake_table_entry)))) := by
  refine ⟨?_, ?_, ?_, ?_, ?_⟩
  · intro h e
    unfold EpochCommittees.lookup_leader
    simp [h]
  · intro fe e hfe hlt
    unfold EpochCommittees.lookup_leader
    simp [hfe, hlt]
  · intro fe e hfe hle hrc
    unfold EpochCommittees.lookup_leader
    simp [hfe, Nat.not_lt.mpr hle, hrc]
  · intro fe e rc hfe hle hrc
    unfold EpochCommittees.lookup_leader
    simp [hfe, Nat.not_lt.mpr hle, hrc]
  · intro h
    unfold EpochCommittees.lookup_leader
    cases hfe : c.first_epoch <;> simp [List.length_eq_zero, h]

/-- Witness for the amended C2 at a concrete committee: a pre-first-epoch
query errors, an in-range query with a randomized committee returns its
leader, and a `none`-epoch query returns the indexed non-epoch leader. -/
theorem claim_C2_amended_witness :
    EpochCommittees.lookup_leader
      { eligible_leaders := [⟨⟨7, 5⟩⟩],
        randomized_committees := [(2, ⟨fun _ => ⟨9, 4⟩⟩)], first_epoch := some 2 }
      5 (some 1)
      = some (.error .err) ∧
    EpochCommittees.lookup_leader
      { eligible_leaders := [⟨⟨7, 5⟩⟩],
        randomized_committees := [(2, ⟨fun _ => ⟨9, 4⟩⟩)], first_epoch := some 2 }
      5 (some 2)
      = some (.ok 9) ∧
    EpochCommittees.lookup_leader
      { eligible_leaders := [⟨⟨7, 5⟩⟩],
        randomized_committees := [(2, ⟨fun _ => ⟨9, 4⟩⟩)], first_epoch := some 2 }
      5 none
      = some (.ok 7) :=
  ⟨(claim_C2_amended_lookup_leader_cases _ 5).2.1 2 1 rfl (by omega),
   (claim_C2_amended_lookup_leader_cases _ 5).2.2.2.1 2 2 ⟨fun _ => ⟨9, 4⟩⟩ rfl (by omega) rfl,
   (claim_C2_amended_lookup_leader_cases _ 5).2.2.2.2 (by simp)⟩

/-- C6: for every 256-bit total stake `n` (up to and including `U256::MAX`),
`success_threshold` equals `(2n/3)+1` when `n < MAX/2` and `(n/3)*2 + 2`
otherwise, `failure_threshold` equals `n/3 + 1`, and `upgrade_threshold`
equals the maximum of the success threshold and the overflow-guarded
nine-tenths computation — and none of the checked `U256` operations
overflows (every result is `some`). -/
theorem claim_C6_threshold_arithmetic (n : Nat) (h : n ≤ U256_MAX) :
    success_threshold n = some (if n < U256_MAX / 2 then 2 * n / 3 + 1 else n / 3 * 2 + 2) ∧
    failure_threshold n = some (n / 3 + 1) ∧
    upgrade_threshold n =
      some (max (if n < U256_MAX / 9 then 9 * n / 10 else n / 10 * 9)
                (if n < U256_MAX / 2 then 2 * n / 3 + 1 else n / 3 * 2 + 2)) := by
  have hM : U256_MAX =
      115792089237316195423570985008687907853269984665640564039457584007913129639935 := by
    norm_num [U256_MAX]
  rw [hM] at h ⊢
  have hsucc : success_threshold n =
      some (if n <
        115792089237316195423570985008687907853269984665640564039457584007913129639935 / 2
        then 2 * n / 3 + 1 else n / 3 * 2 + 2) := by
    unfold success_threshold u256CheckedMul u256CheckedAdd
    rw [hM]
    split_ifs <;> simp <;> omega
  refine ⟨hsucc, ?_, ?_⟩
  · unfold failure_threshold u256CheckedAdd
    rw [hM]
    split_ifs <;> first | rfl | (exfalso; omega)
  · unfold upgrade_threshold u256CheckedMul
    rw [hsucc, hM]
    split_ifs <;>
      simp only [Option.some_bind, Option.map_some, Option.map_none,
        Option.map_some', Option.map_none', Option.some.injEq] <;>
      first
        | (exfalso; omega)
        | omega

/-- Witness for C6 at the extreme input `n = U256::MAX`: the thresholds are
computed without overflow. -/
theorem claim_C6_witness :
    U256_MAX ≤ U256_MAX ∧
    success_threshold U256_MAX =
      some (if U256_MAX < U256_MAX / 2 then 2 * U256_MAX / 3 + 1 else U256_MAX / 3 * 2 + 2) ∧
    failure_threshold U256_MAX = some (U256_MAX / 3 + 1) ∧
    upgrade_threshold U256_MAX =
      some (max (if U256_MAX < U256_MAX / 9 then 9 * U256_MAX / 10 else U256_MAX / 10 * 9)
                (if U256_MAX < U256_MAX / 2 then 2 * U256_MAX / 3 + 1
                 else U256_MAX / 3 * 2 + 2)) :=
  ⟨Nat.le_refl _, claim_C6_threshold_arithmetic U256_MAX (Nat.le_refl _)⟩

/-- C1 counterexample: a state holding validator `1` with keys `(10, 20)`
and with Schnorr key `21` already used; the key update to `(11, 21)` reports
the expected `SchnorrKeyAlreadyUsed` but the validator's stored keys remain
`(10, 20)` — the update is NOT committed, contradicting the claim that the
keys are overwritten to the new pair. -/
theorem claim_C1_counterexample :
    StakeTableState.apply_event
      { validators := [(1, { account := 1, stake_table_key := 10, state_ver_key := 20,
                             stake := 0, commission := 0, delegators := [] })],
        used_bls_keys := [10], used_schnorr_keys := [20, 21] }
      (.KeyUpdate { account := 1, blsVK := 11, schnorrVK := 21 })
      = .expected (.SchnorrKeyAlreadyUsed 21)
        { validators := [(1, { account := 1, stake_table_key := 10, state_ver_key := 20,
                               stake := 0, commission := 0, delegators := [] })],
          used_bls_keys := [11, 10], used_schnorr_keys := [20, 21] } ∧
    lookupVal [(1, { account := 1, stake_table_key := 10, state_ver_key := 20,
                     stake := 0, commission := 0, delegators := [] })] 1
      = some { account := 1, stake_table_key := 10, state_ver_key := 20,
               stake := 0, commission := 0, delegators := [] } ∧
    (10 : Nat) ≠ 11 ∧ (20 : Nat) ≠ 21 := by
  refine ⟨by decide, by decide, by decide, by decide⟩

/-- C1 (amended): for every key-update event (`KeyUpdate` or authenticated
`KeyUpdateV2`) applied to a state in which the target account is present,
the new BLS key is not in `used_bls_keys` and the new Schnorr key is already
in `used_schnorr_keys`, `apply_event` reports the expected error
`SchnorrKeyAlreadyUsed` and leaves the validator map — in particular the
validator's stored BLS and Schnorr keys — unchanged: the update is not
committed; only the new BLS key is recorded in `used_bls_keys`. -/
theorem claim_C1_amended_key_update_not_committed (s : StakeTableState)
    (acc bls schnorr : Nat) (v : Validator)
    (hacc : lookupVal s.validators acc = some v)
    (hbls : bls ∉ s.used_bls_keys)
    (hsch : schnorr ∈ s.used_schnorr_keys) :
    s.apply_event (.KeyUpdate { account := acc, blsVK := bls, schnorrVK := schnorr })
      = .expected (.SchnorrKeyAlreadyUsed schnorr)
          { s with used_bls_keys := bls :: s.used_bls_keys } ∧
    s.apply_event (.KeyUpdateV2
        { account := acc, blsVK := bls, schnorrVK := schnorr, auth_ok := true })
      = .expected (.SchnorrKeyAlreadyUsed schnorr)
          { s with used_bls_keys := bls :: s.used_bls_keys } := by
  constructor <;> simp [StakeTableState.apply_event, hacc, hbls, hsch]

/-- Witness for the amended C1 at a concrete state. -/
theorem claim_C1_amended_witness :
    StakeTableState.apply_event
      { validators := [(1, { account := 1, stake_table_key := 10, state_ver_key := 20,
                             stake := 0, commission := 0, delegators := [] })],
        used_bls_keys := [10], used_schnorr_keys := [20, 21] }
      (.KeyUpdate { account := 1, blsVK := 11, schnorrVK := 21 })
      = .expected (.SchnorrKeyAlreadyUsed 21)
        { validators := [(1, { account := 1, stake_table_key := 10, state_ver_key := 20,
                               stake := 0, commission := 0, delegators := [] })],
          used_bls_keys := [11, 10], used_schnorr_keys := [20, 21] } :=
  (claim_C1_amended_key_update_not_committed _ 1 11 21
    { account := 1, stake_table_key := 10, state_ver_key := 20,
      stake := 0, commission := 0, delegators := [] }
    (by decide) (by decide) (by decide)).1

/-- C3: for every `Register` or authenticated `RegisterV2` event applied to
a state where the account is absent, the BLS key unused and the Schnorr key
already used, `apply_event` returns the expected `SchnorrKeyAlreadyUsed` and
the validator map is unchanged (the validator is NOT inserted); and folding
two registrations of distinct accounts with distinct BLS keys but the same
Schnorr key yields a map holding exactly the first validator, with the
second absent and no fatal error. -/
theorem claim_C3_schnorr_reuse_not_inserted :
    (∀ (s : StakeTableState) (d : ValidatorRegistered),
      lookupVal s.validators d.account = none →
      d.blsVk ∉ s.used_bls_keys →
      d.schnorrVk ∈ s.used_schnorr_keys →
      s.apply_event (.Register d)
        = .expected (.SchnorrKeyAlreadyUsed d.schnorrVk)
            { s with used_bls_keys := d.blsVk :: s.used_bls_keys }) ∧
    (∀ (s : StakeTableState) (d : ValidatorRegisteredV2),
      d.auth_ok = true →
      lookupVal s.validators d.account = none →
      d.blsVK ∉ s.used_bls_keys →
      d.schnorrVK ∈ s.used_schnorr_keys →
      s.apply_event (.RegisterV2 d)
        = .expected (.SchnorrKeyAlreadyUsed d.schnorrVK)
            { s with used_bls_keys := d.blsVK :: s.used_bls_keys }) ∧
    (∀ a1 a2 b1 b2 k c1 c2 : Nat, a1 ≠ a2 → b1 ≠ b2 →
      validators_from_l1_events
        [.Register { account := a1, blsVk := b1, schnorrVk := k, commission := c1 },
         .Register { account := a2, blsVk := b2, schnorrVk := k, commission := c2 }]
        = .ok [(a1, { account := a1, stake_table_key := b1, state_ver_key := k,
                      stake := 0, commission := c1, delegators := [] })] ∧
      lookupVal [(a1, { account := a1, stake_table_key := b1, state_ver_key := k,
                        stake := 0, commission := c1, delegators := [] })] a1
        = some { account := a1, stake_table_key := b1, state_ver_key := k,
                 stake := 0, commission := c1, delegators := [] } ∧
      lookupVal [(a1, { account := a1, stake_table_key := b1, state_ver_key := k,
                        stake := 0, commission := c1, delegators := [] })] a2 = none) := by
  refine ⟨?_, ?_, ?_⟩
  · intro s d hacc hbls hsch
    simp [StakeTableState.apply_event, hacc, hbls, hsch]
  · intro s d hauth hacc hbls hsch
    simp [StakeTableState.apply_event, hauth, hacc, hbls, hsch]
  · intro a1 a2 b1 b2 k c1 c2 ha hb
    refine ⟨?_, by simp [lookupVal], by simp [lookupVal, ha]⟩
    simp [validators_from_l1_events, foldEvents, StakeTableState.apply_event,
      StakeTableState.new, lookupVal, ha, (Ne.symm hb)]

/-- Witness for C3 at concrete inputs. -/
theorem claim_C3_witness :
    StakeTableState.apply_event
      { validators := [], used_bls_keys := [], used_schnorr_keys := [5] }
      (.Register { account := 1, blsVk := 2, schnorrVk := 5, commission := 0 })
      = .expected (.SchnorrKeyAlreadyUsed 5)
          { validators := [], used_bls_keys := [2], used_schnorr_keys := [5] } ∧
    validators_from_l1_events
      [.Register { account := 1, blsVk := 2, schnorrVk := 5, commission := 0 },
       .Register { account := 3, blsVk := 4, schnorrVk := 5, commission := 0 }]
      = .ok [(1, { account := 1, stake_table_key := 2, state_ver_key := 5,
                   stake := 0, commission := 0, delegators := [] })] :=
  ⟨(claim_C3_schnorr_reuse_not_inserted.1 _ _ (by decide) (by decide) (by decide)),
   ((claim_C3_schnorr_reuse_not_inserted.2.2 1 3 2 4 5 0 0 (by decide) (by decide)).1)⟩

/-- Helper: no successful or expected-error application of an event ever
removes a key from `used_bls_keys`. -/
theorem used_bls_keys_mono (t t' : StakeTableState) (e : StakeTableEvent) (k : Nat)
    (hk : k ∈ t.used_bls_keys)
    (h : t.apply_event e = .ok t' ∨ ∃ err, t.apply_event e = .expected err t') :
    k ∈ t'.used_bls_keys := by
  cases e <;>
    simp only [StakeTableState.apply_event] at h <;>
    rcases h with h | ⟨err, h⟩ <;>
    (repeat' split at h) <;>
    injection h <;>
    subst t' <;>
    simp [hk]

/-- C9: when a `Register` returns the expected `SchnorrKeyAlreadyUsed`, the
event's BLS key has nonetheless been added to `used_bls_keys` although no
validator was inserted; in any state whose `used_bls_keys` contains that
key, a later `Register`, authenticated `RegisterV2`, `KeyUpdate` or
authenticated `KeyUpdateV2` presenting the same BLS key fails fatally with
`BlsKeyAlreadyUsed`; and the key is permanent — no successful or
expected-error event application ever removes it. -/
theorem claim_C9_bls_key_recorded_on_expected_error (s : StakeTableState)
    (d : ValidatorRegistered)
    (hacc : lookupVal s.validators d.account = none)
    (hbls : d.blsVk ∉ s.used_bls_keys)
    (hsch : d.schnorrVk ∈ s.used_schnorr_keys) :
    (s.apply_event (.Register d)
      = .expected (.SchnorrKeyAlreadyUsed d.schnorrVk)
          { s with used_bls_keys := d.blsVk :: s.used_bls_keys }) ∧
    (∀ t : StakeTableState, d.blsVk ∈ t.used_bls_keys →
      (∀ r : ValidatorRegistered, r.blsVk = d.blsVk →
        lookupVal t.validators r.account = none →
        t.apply_event (.Register r) = .fatal (.BlsKeyAlreadyUsed d.blsVk)) ∧
      (∀ r : ValidatorRegisteredV2, r.blsVK = d.blsVk → r.auth_ok = true →
        lookupVal t.validators r.account = none →
        t.apply_event (.RegisterV2 r) = .fatal (.BlsKeyAlreadyUsed d.blsVk)) ∧
      (∀ u : ConsensusKeysUpdated, u.blsVK = d.blsVk →
        (lookupVal t.validators u.account).isSome →
        t.apply_event (.KeyUpdate u) = .fatal (.BlsKeyAlreadyUsed d.blsVk)) ∧
      (∀ u : ConsensusKeysUpdatedV2, u.blsVK = d.blsVk → u.auth_ok = true →
        (lookupVal t.validators u.account).isSome →
        t.apply_event (.KeyUpdateV2 u) = .fatal (.BlsKeyAlreadyUsed d.blsVk))) ∧
    (∀ (t t' : StakeTableState) (e : StakeTableEvent),
      d.blsVk ∈ t.used_bls_keys →
      (t.apply_event e = .ok t' ∨ ∃ err, t.apply_event e = .expected err t') →
      d.blsVk ∈ t'.used_bls_keys) := by
  refine ⟨?_, ?_, ?_⟩
  · simp [StakeTableState.apply_event, hacc, hbls, hsch]
  · intro t ht
    refine ⟨?_, ?_, ?_, ?_⟩
    · intro r hr hra
      simp [StakeTableState.apply_event, hra, hr, ht]
    · intro r hr hrauth hra
      simp [StakeTableState.apply_event, hra, hr, hrauth, ht]
    · intro u hu hua
      rcases Option.isSome_iff_exists.mp hua with ⟨v, hv⟩
      simp [StakeTableState.apply_event, hv, hu, ht]
    · intro u hu huauth hua
      rcases Option.isSome_iff_exists.mp hua with ⟨v, hv⟩
      simp [StakeTableState.apply_event, hv, hu, huauth, ht]
  · intro t t' e ht h
    exact used_bls_keys_mono t t' e d.blsVk ht h

/-- Witness for C9 at concrete inputs: registering account 1 with BLS key 2
and the already-used Schnorr key 9 yields the expected error while recording
key 2, and a later registration of a fresh account 3 with a fresh Schnorr
key but the same BLS key 2 is fatal. -/
theorem claim_C9_witness :
    StakeTableState.apply_event
      { validators := [], used_bls_keys := [], used_schnorr_keys := [9] }
      (.Register { account := 1, blsVk := 2, schnorrVk := 9, commission := 0 })
      = .expected (.SchnorrKeyAlreadyUsed 9)
          { validators := [], used_bls_keys := [2], used_schnorr_keys := [9] } ∧
    StakeTableState.apply_event
      { validators := [], used_bls_keys := [2], used_schnorr_keys := [9] }
      (.Register { account := 3, blsVk := 2, schnorrVk := 8, commission := 0 })
      = .fatal (.BlsKeyAlreadyUsed 2) := by
  have h := claim_C9_bls_key_recorded_on_expected_error
    { validators := [], used_bls_keys := [], used_schnorr_keys := [9] }
    { account := 1, blsVk := 2, schnorrVk := 9, commission := 0 }
    (by decide) (by decide) (by decide)
  exact ⟨h.1, (h.2.1 { validators := [], used_bls_keys := [2], used_schnorr_keys := [9] }
    (by decide)).1 { account := 3, blsVk := 2, schnorrVk := 8, commission := 0 }
    (by decide) (by decide)⟩

/-- Helper lemmas for the fold invariant (C4). -/
theorem sum_addDelegator (ds : List (Nat × Nat)) (d amt : Nat) :
    ((addDelegator ds d amt).map Prod.snd).sum = (ds.map Prod.snd).sum + amt := by
  induction ds with
  | nil => simp [addDelegator]
  | cons p rest ih =>
    obtain ⟨d0, o⟩ := p
    by_cases h : d0 = d <;> simp [addDelegator, h, ih] <;> omega

theorem pos_addDelegator (ds : List (Nat × Nat)) (d amt : Nat)
    (hds : ∀ q ∈ ds, q.2 ≠ 0) (hamt : amt ≠ 0) :
    ∀ q ∈ addDelegator ds d amt, q.2 ≠ 0 := by
  induction ds with
  | nil => simp [addDelegator, hamt]
  | cons p rest ih =>
    obtain ⟨d0, o⟩ := p
    by_cases h : d0 = d
    · simp only [addDelegator, h, if_pos rfl]
      intro q hq
      rcases List.mem_cons.mp hq with hq | hq
      · subst hq; simp; omega
      · exact hds q (List.mem_cons_of_mem _ hq)
    · simp only [addDelegator, if_neg h]
      intro q hq
      rcases List.mem_cons.mp hq with hq | hq
      · subst hq; exact hds _ (List.mem_cons_self _ _)
      · exact ih (fun r hr => hds r (List.mem_cons_of_mem _ hr)) q hq

theorem sum_subDelegator (ds : List (Nat × Nat)) (d amt o : Nat)
    (hlk : lookupDelegator ds d = some o) (hamt : amt ≤ o) :
    ((subDelegator ds d amt).map Prod.snd).sum + amt = (ds.map Prod.snd).sum := by
  induction ds with
  | nil => simp [lookupDelegator] at hlk
  | cons p rest ih =>
    obtain ⟨d0, o0⟩ := p
    by_cases h : d0 = d
    · simp only [lookupDelegator, if_pos h, Option.some.injEq] at hlk
      subst hlk
      by_cases hz : o0 - amt = 0 <;> simp [subDelegator, h, hz] <;> omega
    · simp only [lookupDelegator, if_neg h] at hlk
      have hrec := ih hlk
      simp only [subDelegator, if_neg h, List.map_cons, List.sum_cons]
      omega

theorem pos_subDelegator (ds : List (Nat × Nat)) (d amt : Nat)
    (hds : ∀ q ∈ ds, q.2 ≠ 0) :
    ∀ q ∈ subDelegator ds d amt, q.2 ≠ 0 := by
  induction ds with
  | nil => simp [subDelegator]
  | cons p rest ih =>
    obtain ⟨d0, o0⟩ := p
    by_cases h : d0 = d
    · by_cases hz : o0 - amt = 0
      · simp only [subDelegator, if_pos h, if_pos hz]
        exact fun q hq => hds q (List.mem_cons_of_mem _ hq)
      · simp only [subDelegator, if_pos h, if_neg hz]
        intro q hq
        rcases List.mem_cons.mp hq with hq | hq
        · subst hq; simpa using hz
        · exact hds q (List.mem_cons_of_mem _ hq)
    · simp only [subDelegator, if_neg h]
      intro q hq
      rcases List.mem_cons.mp hq with hq | hq
      · subst hq; exact hds _ (List.mem_cons_self _ _)
      · exact ih (fun r hr => hds r (List.mem_cons_of_mem _ hr)) q hq

theorem mem_modifyVal (m : List (Nat × Validator)) (a : Nat) (f : Validator → Validator)
    (p : Nat × Validator) (hp : p ∈ modifyVal m a f) :
    p ∈ m ∨ ∃ v, lookupVal m a = some v ∧ p = (a, f v) := by
  induction m with
  | nil => simp [modifyVal] at hp
  | cons q rest ih =>
    obtain ⟨a0, v0⟩ := q
    by_cases h : a0 = a
    · subst h
      simp only [modifyVal, if_pos rfl] at hp
      rcases List.mem_cons.mp hp with hp | hp
      · exact Or.inr ⟨v0, by simp [lookupVal], hp⟩
      · exact Or.inl (List.mem_cons_of_mem _ hp)
    · simp only [modifyVal, if_neg h] at hp
      rcases List.mem_cons.mp hp with hp | hp
      · exact Or.inl (by simp [hp])
      · rcases ih hp with hin | ⟨v, hv, hpv⟩
        · exact Or.inl (List.mem_cons_of_mem _ hin)
        · exact Or.inr ⟨v, by simp [lookupVal, h, hv], hpv⟩

theorem mem_removeVal (m : List (Nat × Validator)) (a : Nat)
    (p : Nat × Validator) (hp : p ∈ removeVal m a) : p ∈ m := by
  induction m with
  | nil => simp [removeVal] at hp
  | cons q rest ih =>
    obtain ⟨a0, v0⟩ := q
    by_cases h : a0 = a
    · simp only [removeVal, if_pos h] at hp
      exact List.mem_cons_of_mem _ hp
    · simp only [removeVal, if_neg h] at hp
      rcases List.mem_cons.mp hp with hp | hp
      · simp [hp]
      · exact List.mem_cons_of_mem _ (ih hp)

theorem lookupVal_mem (m : List (Nat × Validator)) (a : Nat) (v : Validator)
    (h : lookupVal m a = some v) : (a, v) ∈ m := by
  induction m with
  | nil => simp [lookupVal] at h
  | cons q rest ih =>
    obtain ⟨a0, v0⟩ := q
    rw [lookupVal] at h
    split at h
    · next ha =>
        subst ha
        injection h with h
        subst h
        exact List.mem_cons_self _ _
    · exact List.mem_cons_of_mem _ (ih h)

theorem apply_event_inv (s s' : StakeTableState) (e : StakeTableEvent)
    (hs : stateInv s)
    (h : s.apply_event e = .ok s' ∨ ∃ err, s.apply_event e = .expected err s') :
    stateInv s' := by
  have hreg : ∀ (acc bls sch comm : Nat),
      ∀ p ∈ s.validators ++
        [((acc, { account := acc, stake_table_key := bls, state_ver_key := sch,
                  stake := 0, commission := comm, delegators := [] }) : Nat × Validator)],
        goodValidator p.2 := by
    intro acc bls sch comm p hp
    rcases List.mem_append.mp hp with hp | hp
    · exact hs p hp
    · simp only [List.mem_singleton] at hp
      subst hp
      exact ⟨by simp, by simp⟩
  have hkeys : ∀ (acc bls sch : Nat),
      stateInv { s with
        used_bls_keys := bls :: s.used_bls_keys,
        used_schnorr_keys := sch :: s.used_schnorr_keys,
        validators := modifyVal s.validators acc fun v =>
          { v with stake_table_key := bls, state_ver_key := sch } } := by
    intro acc bls sch p hp
    rcases mem_modifyVal _ _ _ p hp with hp | ⟨w, hw, rfl⟩
    · exact hs p hp
    · have hgood := hs _ (lookupVal_mem _ _ _ hw)
      exact ⟨hgood.1, hgood.2⟩
  cases e with
  | Register d =>
    simp only [StakeTableState.apply_event] at h
    rcases h with h | ⟨err, h⟩ <;> (repeat' split at h) <;> injection h <;> subst s'
    · exact fun p hp => hreg d.account d.blsVk d.schnorrVk d.commission p hp
    · exact hs
  | RegisterV2 d =>
    simp only [StakeTableState.apply_event] at h
    rcases h with h | ⟨err, h⟩ <;> (repeat' split at h) <;> injection h <;> subst s'
    · exact fun p hp => hreg d.account d.blsVK d.schnorrVK d.commission p hp
    · exact hs
  | Deregister d =>
    simp only [StakeTableState.apply_event] at h
    rcases h with h | ⟨err, h⟩ <;> (repeat' split at h) <;> injection h <;> subst s'
    exact fun p hp => hs p (mem_removeVal _ _ p hp)
  | Delegate d =>
    have hgoal : d.amount ≠ 0 →
        stateInv { s with validators := modifyVal s.validators d.validator fun v =>
          { v with stake := v.stake + d.amount,
                   delegators := addDelegator v.delegators d.delegator d.amount } } := by
      intro hamt p hp
      rcases mem_modifyVal _ _ _ p hp with hp | ⟨w, hw, rfl⟩
      · exact hs p hp
      · have hgood := hs _ (lookupVal_mem _ _ _ hw)
        refine ⟨?_, ?_⟩
        · show w.stake + d.amount =
            ((addDelegator w.delegators d.delegator d.amount).map Prod.snd).sum
          have h1 : w.stake = (w.delegators.map Prod.snd).sum := hgood.1
          rw [sum_addDelegator, h1]
        · exact pos_addDelegator _ _ _ hgood.2 hamt
    simp only [StakeTableState.apply_event] at h
    rcases h with h | ⟨err, h⟩ <;> (repeat' split at h) <;> injection h <;> subst s' <;>
      exact hgoal (by assumption)
  | Undelegate d =>
    have hgoal : ∀ (v : Validator) (o : Nat),
        lookupVal s.validators d.validator = some v →
        lookupDelegator v.delegators d.delegator = some o →
        ¬o < d.amount →
        stateInv { s with validators := modifyVal s.validators d.validator fun v =>
          { v with stake := v.stake - d.amount,
                   delegators := subDelegator v.delegators d.delegator d.amount } } := by
      intro v o hv hlkd ho p hp
      rcases mem_modifyVal _ _ _ p hp with hp | ⟨w, hw, rfl⟩
      · exact hs p hp
      · rw [hv] at hw
        injection hw with hw
        subst hw
        have hgood := hs _ (lookupVal_mem _ _ _ hv)
        have hsum := sum_subDelegator v.delegators d.delegator d.amount o hlkd (Nat.not_lt.mp ho)
        refine ⟨?_, ?_⟩
        · show v.stake - d.amount =
            ((subDelegator v.delegators d.delegator d.amount).map Prod.snd).sum
          have h1 : v.stake = (v.delegators.map Prod.snd).sum := hgood.1
          omega
        · exact pos_subDelegator _ _ _ hgood.2
    simp only [StakeTableState.apply_event] at h
    rcases h with h | ⟨err, h⟩ <;> (repeat' split at h) <;> injection h <;> subst s' <;>
      exact hgoal _ _ (by assumption) (by assumption) (by assumption)
  | KeyUpdate d =>
    simp only [StakeTableState.apply_event] at h
    rcases h with h | ⟨err, h⟩ <;> (repeat' split at h) <;> injection h <;> subst s'
    · exact hkeys d.account d.blsVK d.schnorrVK
    · exact hs
  | KeyUpdateV2 d =>
    simp only [StakeTableState.apply_event] at h
    rcases h with h | ⟨err, h⟩ <;> (repeat' split at h) <;> injection h <;> subst s'
    · exact hkeys d.account d.blsVK d.schnorrVK
    · exact hs

theorem foldEvents_inv (evs : List StakeTableEvent) : ∀ (s s' : StakeTableState),
    stateInv s → foldEvents s evs = .ok s' → stateInv s' := by
  induction evs with
  | nil =>
    intro s s' hs h
    rw [foldEvents] at h
    injection h with h
    subst h
    exact hs
  | cons e rest ih =>
    intro s s' hs h
    cases happ : s.apply_event e with
    | ok s1 =>
      rw [foldEvents, happ] at h
      exact ih s1 s' (apply_event_inv s s1 e hs (Or.inl happ)) h
    | expected err s1 =>
      rw [foldEvents, happ] at h
      exact ih s1 s' (apply_event_inv s s1 e hs (Or.inr ⟨err, happ⟩)) h
    | fatal err =>
      rw [foldEvents, happ] at h
      exact absurd h (by simp)
    | overflow =>
      rw [foldEvents, happ] at h
      exact absurd h (by simp)

/-- C4: for every event sequence whose fold by `validators_from_l1_events`
succeeds, every validator in the resulting map has `stake` equal to the sum
of its delegators' values, and its delegator map contains no zero entries
(a delegator whose stake reaches zero after an `Undelegate` is removed). -/
theorem claim_C4_stake_equals_delegator_sum (events : List StakeTableEvent) (m : ValidatorMap)
    (h : validators_from_l1_events events = .ok m) :
    ∀ p ∈ m, p.2.stake = (p.2.delegators.map Prod.snd).sum ∧ ∀ q ∈ p.2.delegators, q.2 ≠ 0 := by
  unfold validators_from_l1_events at h
  cases hf : foldEvents StakeTableState.new events with
  | ok s =>
    rw [hf] at h
    injection h with h
    subst h
    exact foldEvents_inv events _ s (fun p hp => by simp [StakeTableState.new] at hp) hf
  | fatal err =>
    rw [hf] at h
    exact absurd h (by simp)
  | overflow =>
    rw [hf] at h
    exact absurd h (by simp)

/-- Witness for C4 at a concrete event sequence: register, delegate 10,
undelegate 4; the fold succeeds and the surviving validator's stake equals
the sum of its delegator entries. -/
theorem claim_C4_witness :
    validators_from_l1_events
      [.Register { account := 1, blsVk := 2, schnorrVk := 3, commission := 0 },
       .Delegate { delegator := 7, validator := 1, amount := 10 },
       .Undelegate { delegator := 7, validator := 1, amount := 4 }]
      = .ok [(1, { account := 1, stake_table_key := 2, state_ver_key := 3,
                   stake := 6, commission := 0, delegators := [(7, 6)] })] ∧
    (6 : Nat) = ([(7, 6)].map (Prod.snd (α := Nat))).sum :=
  ⟨by decide,
   (claim_C4_stake_equals_delegator_sum
      [.Register { account := 1, blsVk := 2, schnorrVk := 3, commission := 0 },
       .Delegate { delegator := 7, validator := 1, amount := 10 },
       .Undelegate { delegator := 7, validator := 1, amount := 4 }]
      [(1, { account := 1, stake_table_key := 2, state_ver_key := 3,
             stake := 6, commission := 0, delegators := [(7, 6)] })]
      (by decide)
      (1, { account := 1, stake_table_key := 2, state_ver_key := 3,
            stake := 6, commission := 0, delegators := [(7, 6)] })
      (by decide)).1⟩

/-- Helper: in a list whose keys are pairwise distinct, two members sharing
a key are equal. -/
theorem eq_of_mem_of_nodupkeys (l : List (Nat × Validator))
    (hnd : (l.map Prod.fst).Nodup) (p q : Nat × Validator)
    (hp : p ∈ l) (hq : q ∈ l) (h : p.1 = q.1) : p = q := by
  induction l with
  | nil => simp at hp
  | cons x rest ih =>
    simp only [List.map_cons, List.nodup_cons] at hnd
    rcases List.mem_cons.mp hp with hp1 | hp1 <;> rcases List.mem_cons.mp hq with hq1 | hq1
    · rw [hp1, hq1]
    · exfalso
      apply hnd.1
      rw [hp1] at h
      rw [h]
      exact List.mem_map_of_mem Prod.fst hq1
    · exfalso
      apply hnd.1
      rw [hq1] at h
      rw [← h]
      exact List.mem_map_of_mem Prod.fst hp1
    · exact ih hnd.2 hp1 hq1

/-- Helper: shape of `select_active_validator_set` when the pruned map is
non-empty — the checked division cannot fail, so the result is the retain of
the top-100 stakers. -/
theorem select_ok_form (validators : ValidatorMap)
    (mx : Nat)
    (hmx : ((retainValid validators).map fun p => p.2.stake).max? = some mx) :
    select_active_validator_set validators =
      .ok ((retainValid validators).filter fun p => p.1 ∈
        ((List.insertionSort stakeGe (((retainValid validators).filter fun p =>
            mx / VID_TARGET_TOTAL_STAKE ≤ p.2.stake).map fun p =>
              (p.1, p.2.stake))).take 100).map Prod.fst) := by
  have hne : retainValid validators ≠ [] := by
    intro hemp
    rw [hemp] at hmx
    simp at hmx
  have hie : (retainValid validators).isEmpty = false := by
    simpa using hne
  simp only [select_active_validator_set, hie, hmx, u256CheckedDiv,
    VID_TARGET_TOTAL_STAKE]
  norm_num

/-- C5: `select_active_validator_set` first removes validators with zero
stake or an empty delegator map, errors with `NoValidValidators` exactly
when none remain, and otherwise returns at most 100 validators, each with
non-zero stake, at least one delegator, and stake at least
`max_stake / VID_TARGET_TOTAL_STAKE` (integer division), preserving the
insertion order of the survivors (the result is a sublist of the input
map). -/
theorem claim_C5_active_set_selection (validators : ValidatorMap)
    (hnd : (validators.map Prod.fst).Nodup) :
    (retainValid validators = [] →
      select_active_validator_set validators = .error .NoValidValidators) ∧
    (∀ e, select_active_validator_set validators = .error e →
      e = .NoValidValidators ∧ retainValid validators = []) ∧
    (∀ r, select_active_validator_set validators = .ok r →
      r.length ≤ 100 ∧
      r.Sublist validators ∧
      ∀ p ∈ r, p.2.stake ≠ 0 ∧ p.2.delegators ≠ [] ∧
        maxStakeOf (retainValid validators) / VID_TARGET_TOTAL_STAKE ≤ p.2.stake) := by
  have hFsub : (retainValid validators).Sublist validators := List.filter_sublist _
  have hndF : ((retainValid validators).map Prod.fst).Nodup :=
    (hnd.sublist (hFsub.map Prod.fst))
  refine ⟨?_, ?_, ?_⟩
  · intro hemp
    simp [select_active_validator_set, hemp]
  · intro e he
    by_cases hemp : retainValid validators = []
    · simp [select_active_validator_set, hemp] at he
      exact ⟨he.symm, hemp⟩
    · obtain ⟨mx, hmx⟩ : ∃ mx,
          ((retainValid validators).map fun p => p.2.stake).max? = some mx := by
        cases hm : ((retainValid validators).map fun p => p.2.stake).max? with
        | none =>
          rw [List.max?_eq_none_iff] at hm
          simp only [List.map_eq_nil_iff] at hm
          exact absurd hm hemp
        | some m => exact ⟨m, rfl⟩
      rw [select_ok_form validators mx hmx] at he
      exact absurd he (by simp)
  · intro r hr
    obtain ⟨mx, hmx⟩ : ∃ mx,
        ((retainValid validators).map fun p => p.2.stake).max? = some mx := by
      cases hm : ((retainValid validators).map fun p => p.2.stake).max? with
      | none =>
        rw [List.max?_eq_none_iff] at hm
        simp only [List.map_eq_nil_iff] at hm
        exfalso
        simp [select_active_validator_set, hm] at hr
      | some m => exact ⟨m, rfl⟩
    rw [select_ok_form validators mx hmx] at hr
    injection hr with hr
    subst hr
    have hmaxof : maxStakeOf (retainValid validators) = mx := by
      simp [maxStakeOf, hmx]
    set F := retainValid validators with hF
    set sel := ((List.insertionSort stakeGe ((F.filter fun p =>
        mx / VID_TARGET_TOTAL_STAKE ≤ p.2.stake).map fun p =>
          (p.1, p.2.stake))).take 100).map Prod.fst with hsel
    refine ⟨?_, ?_, ?_⟩
    · -- cardinality bound
      have hrsub : ((F.filter fun p => p.1 ∈ sel).map Prod.fst).Sublist (F.map Prod.fst) :=
        (List.filter_sublist _).map Prod.fst
      have hndr : ((F.filter fun p => p.1 ∈ sel).map Prod.fst).Nodup := hndF.sublist hrsub
      have hsub : ((F.filter fun p => p.1 ∈ sel).map Prod.fst) ⊆ sel := by
        intro x hx
        rcases List.mem_map.mp hx with ⟨p, hp, rfl⟩
        have := (List.mem_filter.mp hp).2
        simpa using this
      calc (F.filter fun p => p.1 ∈ sel).length
          = ((F.filter fun p => p.1 ∈ sel).map Prod.fst).length := (List.length_map _ _).symm
        _ = ((F.filter fun p => p.1 ∈ sel).map Prod.fst).toFinset.card :=
            (List.toFinset_card_of_nodup hndr).symm
        _ ≤ sel.toFinset.card := Finset.card_le_card fun x hx =>
            List.mem_toFinset.mpr (hsub (List.mem_toFinset.mp hx))
        _ ≤ sel.length := List.toFinset_card_le _
        _ ≤ 100 := by
            rw [hsel, List.length_map]
            have := List.length_take 100 (List.insertionSort stakeGe ((F.filter fun p =>
              mx / VID_TARGET_TOTAL_STAKE ≤ p.2.stake).map fun p => (p.1, p.2.stake)))
            omega
    · exact (List.filter_sublist _).trans hFsub
    · intro p hp
      have hpF : p ∈ F := (List.mem_filter.mp hp).1
      have hpsel : p.1 ∈ sel := by
        have := (List.mem_filter.mp hp).2
        simpa using this
      have hret := (List.mem_filter.mp hpF).2
      simp only [Bool.and_eq_true, Bool.not_eq_true', List.isEmpty_eq_false,
        beq_iff_eq, decide_eq_true_eq] at hret
      refine ⟨?_, ?_, ?_⟩
      · simpa using hret.2
      · exact hret.1
      · rw [hmaxof]
        rcases List.mem_map.mp hpsel with ⟨q, hq, hq1⟩
        have hqss : q ∈ List.insertionSort stakeGe ((F.filter fun p =>
            mx / VID_TARGET_TOTAL_STAKE ≤ p.2.stake).map fun p => (p.1, p.2.stake)) :=
          List.take_subset _ _ hq
        have hqvs : q ∈ (F.filter fun p =>
            mx / VID_TARGET_TOTAL_STAKE ≤ p.2.stake).map fun p => (p.1, p.2.stake) :=
          (List.perm_insertionSort stakeGe _).mem_iff.mp hqss
        rcases List.mem_map.mp hqvs with ⟨w, hw, rfl⟩
        have hwF : w ∈ F := (List.mem_filter.mp hw).1
        have hwmin : mx / VID_TARGET_TOTAL_STAKE ≤ w.2.stake := by
          have := (List.mem_filter.mp hw).2
          simpa using this
        have hwp : w = p :=
          eq_of_mem_of_nodupkeys F hndF w p hwF hpF (by rw [← hq1])
        rw [← hwp]
        exact hwmin

/-- Witness for C5 at a concrete map of three validators, one of which has
no stake: the selection keeps the other two in insertion order. -/
theorem claim_C5_witness :
    select_active_validator_set
      [(1, { account := 1, stake_table_key := 11, state_ver_key := 21,
             stake := 50, commission := 0, delegators := [(8, 50)] }),
       (2, { account := 2, stake_table_key := 12, state_ver_key := 22,
             stake := 0, commission := 0, delegators := [] }),
       (3, { account := 3, stake_table_key := 13, state_ver_key := 23,
             stake := 100, commission := 0, delegators := [(9, 100)] })]
      = .ok
      [(1, { account := 1, stake_table_key := 11, state_ver_key := 21,
             stake := 50, commission := 0, delegators := [(8, 50)] }),
       (3, { account := 3, stake_table_key := 13, state_ver_key := 23,
             stake := 100, commission := 0, delegators := [(9, 100)] })] ∧
    ([(1, { account := 1, stake_table_key := 11, state_ver_key := 21,
            stake := 50, commission := 0, delegators := [(8, 50)] }),
      (3, { account := 3, stake_table_key := 13, state_ver_key := 23,
            stake := 100, commission := 0, delegators := [(9, 100)] })] :
      List (Nat × Validator)).length ≤ 100 :=
  ⟨by rfl,
   ((claim_C5_active_set_selection
      [(1, { account := 1, stake_table_key := 11, state_ver_key := 21,
             stake := 50, commission := 0, delegators := [(8, 50)] }),
       (2, { account := 2, stake_table_key := 12, state_ver_key := 22,
             stake := 0, commission := 0, delegators := [] }),
       (3, { account := 3, stake_table_key := 13, state_ver_key := 23,
             stake := 100, commission := 0, delegators := [(9, 100)] })]
      (by decide)).2.2
      [(1, { account := 1, stake_table_key := 11, state_ver_key := 21,
             stake := 50, commission := 0, delegators := [(8, 50)] }),
       (3, { account := 3, stake_table_key := 13, state_ver_key := 23,
             stake := 100, commission := 0, delegators := [(9, 100)] })]
      (by rfl)).1⟩

/-- Helper: `logKey` errors exactly on bad logs. -/
theorem logKey_error_iff (log : Log) : (∃ e, logKey log = .error e) ↔ badLog log := by
  rcases log with ⟨_ | bn, _ | li⟩ <;> simp [logKey, badLog]

/-- Helper: a successful `logKey` returns the log's key and certifies the
log is good. -/
theorem logKey_ok_keyOf (log : Log) (k : EventKey) (h : logKey log = .ok k) :
    k = keyOf log ∧ ¬badLog log := by
  rcases log with ⟨_ | bn, _ | li⟩ <;> simp [logKey, badLog, keyOf] at h ⊢ <;> simp [h.symm]

/-- Helper: a collector errors exactly when its batch contains a bad log. -/
theorem collectKeyed_error_iff {α : Type} (into : α → StakeTableEvent) (l : List (α × Log)) :
    (∃ e, collectKeyed into l = .error e) ↔ ∃ p ∈ l, badLog p.2 := by
  induction l with
  | nil => simp [collectKeyed]
  | cons q rest ih =>
    obtain ⟨a, log⟩ := q
    cases hk : logKey log with
    | error e =>
      have hbad : badLog log := (logKey_error_iff log).mp ⟨e, hk⟩
      simp only [collectKeyed, hk]
      constructor
      · intro _
        exact ⟨(a, log), List.mem_cons_self _ _, hbad⟩
      · intro _
        exact ⟨e, rfl⟩
    | ok k =>
      have hgood : ¬badLog log := (logKey_ok_keyOf log k hk).2
      simp only [collectKeyed, hk]
      cases ht : collectKeyed into rest with
      | error e =>
        have hrest : ∃ p ∈ rest, badLog p.2 := ih.mp ⟨e, ht⟩
        rcases hrest with ⟨p, hp, hbp⟩
        constructor
        · intro _
          exact ⟨p, List.mem_cons_of_mem _ hp, hbp⟩
        · intro _
          exact ⟨e, rfl⟩
      | ok out =>
        have hnone : ¬∃ p ∈ rest, badLog p.2 := fun hc => by
          rcases ih.mpr hc with ⟨e, he⟩
          rw [ht] at he
          exact absurd he (by simp)
        constructor
        · intro ⟨e, he⟩
          exact absurd he (by simp)
        · intro ⟨p, hp, hbp⟩
          rcases List.mem_cons.mp hp with hp1 | hp1
          · rw [hp1] at hbp
            exact absurd hbp hgood
          · exact absurd ⟨p, hp1, hbp⟩ hnone

/-- Helper: a successful collector returns its batch's keyed events in
order. -/
theorem collectKeyed_ok {α : Type} (into : α → StakeTableEvent) (l : List (α × Log))
    (out : List (EventKey × StakeTableEvent)) (h : collectKeyed into l = .ok out) :
    out = l.map fun p => (keyOf p.2, into p.1) := by
  induction l generalizing out with
  | nil =>
    rw [collectKeyed] at h
    injection h with h
    simp [h.symm]
  | cons q rest ih =>
    obtain ⟨a, log⟩ := q
    rw [collectKeyed] at h
    cases hk : logKey log with
    | error e =>
      rw [hk] at h
      exact absurd h (by simp)
    | ok k =>
      rw [hk] at h
      cases ht : collectKeyed into rest with
      | error e =>
        rw [ht] at h
        exact absurd h (by simp)
      | ok tail =>
        rw [ht] at h
        injection h with h
        rw [← h, ih tail ht, (logKey_ok_keyOf log k hk).1]
        simp

/-- C7: `sort_events` returns an error (`MissingBlockNumber` or
`MissingLogIndex`) if and only if some log in the batch lacks a block number
or a log index; otherwise it returns all the batch's events (a permutation
of the seven batches' keyed events) sorted ascending by
`(block_number, log_index)`. -/
theorem claim_C7_sort_events (st : StakeTableEvents) :
    ((∃ e, st.sort_events = .error e) ↔
      ∃ log ∈ allLogs st, log.block_number = none ∨ log.log_index = none) ∧
    (∀ evs, st.sort_events = .ok evs →
      evs.Perm (keyedEvents st) ∧ List.Sorted evLe evs) := by
  have hbadiff : ∀ log : Log,
      (log.block_number = none ∨ log.log_index = none) ↔ badLog log := by
    intro log
    rfl
  have memAll1 : ∀ {x : Log}, x ∈ st.registrations.map Prod.snd → x ∈ allLogs st :=
    fun hx => List.mem_append_left _ (List.mem_append_left _ (List.mem_append_left _
      (List.mem_append_left _ (List.mem_append_left _ (List.mem_append_left _ hx)))))
  have memAll2 : ∀ {x : Log}, x ∈ st.registrations_v2.map Prod.snd → x ∈ allLogs st :=
    fun hx => List.mem_append_left _ (List.mem_append_left _ (List.mem_append_left _
      (List.mem_append_left _ (List.mem_append_left _ (List.mem_append_right _ hx)))))
  have memAll3 : ∀ {x : Log}, x ∈ st.deregistrations.map Prod.snd → x ∈ allLogs st :=
    fun hx => List.mem_append_left _ (List.mem_append_left _ (List.mem_append_left _
      (List.mem_append_left _ (List.mem_append_right _ hx))))
  have memAll4 : ∀ {x : Log}, x ∈ st.delegated.map Prod.snd → x ∈ allLogs st :=
    fun hx => List.mem_append_left _ (List.mem_append_left _ (List.mem_append_left _
      (List.mem_append_right _ hx)))
  have memAll5 : ∀ {x : Log}, x ∈ st.undelegated.map Prod.snd → x ∈ allLogs st :=
    fun hx => List.mem_append_left _ (List.mem_append_left _ (List.mem_append_right _ hx))
  have memAll6 : ∀ {x : Log}, x ∈ st.keys.map Prod.snd → x ∈ allLogs st :=
    fun hx => List.mem_append_left _ (List.mem_append_right _ hx)
  have memAll7 : ∀ {x : Log}, x ∈ st.keys_v2.map Prod.snd → x ∈ allLogs st :=
    fun hx => List.mem_append_right _ hx
  constructor
  · constructor
    · rintro ⟨e, he⟩
      unfold StakeTableEvents.sort_events at he
      cases h1 : collectKeyed .Register st.registrations with
      | error e1 =>
        rcases (collectKeyed_error_iff _ _).mp ⟨e1, h1⟩ with ⟨p, hp, hbp⟩
        exact ⟨p.2, memAll1 (List.mem_map_of_mem Prod.snd hp), hbp⟩
      | ok r1 =>
      cases h2 : collectKeyed .RegisterV2 st.registrations_v2 with
      | error e2 =>
        rcases (collectKeyed_error_iff _ _).mp ⟨e2, h2⟩ with ⟨p, hp, hbp⟩
        exact ⟨p.2, memAll2 (List.mem_map_of_mem Prod.snd hp), hbp⟩
      | ok r2 =>
      cases h3 : collectKeyed .Deregister st.deregistrations with
      | error e3 =>
        rcases (collectKeyed_error_iff _ _).mp ⟨e3, h3⟩ with ⟨p, hp, hbp⟩
        exact ⟨p.2, memAll3 (List.mem_map_of_mem Prod.snd hp), hbp⟩
      | ok r3 =>
      cases h4 : collectKeyed .Delegate st.delegated with
      | error e4 =>
        rcases (collectKeyed_error_iff _ _).mp ⟨e4, h4⟩ with ⟨p, hp, hbp⟩
        exact ⟨p.2, memAll4 (List.mem_map_of_mem Prod.snd hp), hbp⟩
      | ok r4 =>
      cases h5 : collectKeyed .Undelegate st.undelegated with
      | error e5 =>
        rcases (collectKeyed_error_iff _ _).mp ⟨e5, h5⟩ with ⟨p, hp, hbp⟩
        exact ⟨p.2, memAll5 (List.mem_map_of_mem Prod.snd hp), hbp⟩
      | ok r5 =>
      cases h6 : collectKeyed .KeyUpdate st.keys with
      | error e6 =>
        rcases (collectKeyed_error_iff _ _).mp ⟨e6, h6⟩ with ⟨p, hp, hbp⟩
        exact ⟨p.2, memAll6 (List.mem_map_of_mem Prod.snd hp), hbp⟩
      | ok r6 =>
      cases h7 : collectKeyed .KeyUpdateV2 st.keys_v2 with
      | error e7 =>
        rcases (collectKeyed_error_iff _ _).mp ⟨e7, h7⟩ with ⟨p, hp, hbp⟩
        exact ⟨p.2, memAll7 (List.mem_map_of_mem Prod.snd hp), hbp⟩
      | ok r7 =>
      simp [h1, h2, h3, h4, h5, h6, h7] at he
    · rintro ⟨log, hmem, hbad⟩
      rw [hbadiff] at hbad
      unfold StakeTableEvents.sort_events
      cases h1 : collectKeyed .Register st.registrations with
      | error e1 => exact ⟨e1, rfl⟩
      | ok r1 =>
      cases h2 : collectKeyed .RegisterV2 st.registrations_v2 with
      | error e2 => exact ⟨e2, rfl⟩
      | ok r2 =>
      cases h3 : collectKeyed .Deregister st.deregistrations with
      | error e3 => exact ⟨e3, rfl⟩
      | ok r3 =>
      cases h4 : collectKeyed .Delegate st.delegated with
      | error e4 => exact ⟨e4, rfl⟩
      | ok r4 =>
      cases h5 : collectKeyed .Undelegate st.undelegated with
      | error e5 => exact ⟨e5, rfl⟩
      | ok r5 =>
      cases h6 : collectKeyed .KeyUpdate st.keys with
      | error e6 => exact ⟨e6, rfl⟩
      | ok r6 =>
      cases h7 : collectKeyed .KeyUpdateV2 st.keys_v2 with
      | error e7 => exact ⟨e7, rfl⟩
      | ok r7 =>
      exfalso
      have herr : ∀ {α : Type} (into : α → StakeTableEvent) (l : List (α × Log))
          (out : List (EventKey × StakeTableEvent)),
          collectKeyed into l = .ok out →
          ∀ p ∈ l, p.2 = log → False := by
        intro α into l out hok p hp hpl
        rcases (collectKeyed_error_iff into l).mpr ⟨p, hp, by rw [hpl]; exact hbad⟩
          with ⟨e, he⟩
        rw [hok] at he
        exact absurd he (by simp)
      simp only [allLogs, List.mem_append, List.mem_map] at hmem
      rcases hmem with ((((((⟨p, hp, hpl⟩ | ⟨p, hp, hpl⟩) | ⟨p, hp, hpl⟩) |
          ⟨p, hp, hpl⟩) | ⟨p, hp, hpl⟩) | ⟨p, hp, hpl⟩) | ⟨p, hp, hpl⟩)
      · exact herr _ _ _ h1 p hp hpl
      · exact herr _ _ _ h2 p hp hpl
      · exact herr _ _ _ h3 p hp hpl
      · exact herr _ _ _ h4 p hp hpl
      · exact herr _ _ _ h5 p hp hpl
      · exact herr _ _ _ h6 p hp hpl
      · exact herr _ _ _ h7 p hp hpl
  · intro evs he
    unfold StakeTableEvents.sort_events at he
    cases h1 : collectKeyed .Register st.registrations with
    | error e1 => simp [h1] at he
    | ok r1 =>
    cases h2 : collectKeyed .RegisterV2 st.registrations_v2 with
    | error e2 => simp [h1, h2] at he
    | ok r2 =>
    cases h3 : collectKeyed .Deregister st.deregistrations with
    | error e3 => simp [h1, h2, h3] at he
    | ok r3 =>
    cases h4 : collectKeyed .Delegate st.delegated with
    | error e4 => simp [h1, h2, h3, h4] at he
    | ok r4 =>
    cases h5 : collectKeyed .Undelegate st.undelegated with
    | error e5 => simp [h1, h2, h3, h4, h5] at he
    | ok r5 =>
    cases h6 : collectKeyed .KeyUpdate st.keys with
    | error e6 => simp [h1, h2, h3, h4, h5, h6] at he
    | ok r6 =>
    cases h7 : collectKeyed .KeyUpdateV2 st.keys_v2 with
    | error e7 => simp [h1, h2, h3, h4, h5, h6, h7] at he
    | ok r7 =>
    simp only [h1, h2, h3, h4, h5, h6, h7] at he
    injection he with he
    subst he
    constructor
    · unfold sortByKey keyedEvents
      rw [collectKeyed_ok _ _ _ h1, collectKeyed_ok _ _ _ h2, collectKeyed_ok _ _ _ h3,
        collectKeyed_ok _ _ _ h4, collectKeyed_ok _ _ _ h5, collectKeyed_ok _ _ _ h6,
        collectKeyed_ok _ _ _ h7]
      exact List.perm_insertionSort evLe _
    · exact List.sorted_insertionSort evLe _

/-- Witness for C7: a batch with a missing block number errors; a good
two-event batch is returned sorted ascending by key. -/
theorem claim_C7_witness :
    StakeTableEvents.sort_events
      { registrations := [({ account := 1, blsVk := 2, schnorrVk := 3, commission := 0 },
                           { block_number := none, log_index := some 0 })],
        registrations_v2 := [], deregistrations := [], delegated := [],
        undelegated := [], keys := [], keys_v2 := [] }
      = .error .MissingBlockNumber ∧
    List.Sorted evLe
      [((4, 0), .Delegate { delegator := 7, validator := 1, amount := 4 }),
       ((5, 1), .Register { account := 1, blsVk := 2, schnorrVk := 3, commission := 0 })] :=
  ⟨by rfl,
   ((claim_C7_sort_events
      { registrations := [({ account := 1, blsVk := 2, schnorrVk := 3, commission := 0 },
                           { block_number := some 5, log_index := some 1 })],
        registrations_v2 := [], deregistrations := [],
        delegated := [({ delegator := 7, validator := 1, amount := 4 },
                       { block_number := some 4, log_index := some 0 })],
        undelegated := [], keys := [], keys_v2 := [] }).2
      [((4, 0), .Delegate { delegator := 7, validator := 1, amount := 4 }),
       ((5, 1), .Register { account := 1, blsVk := 2, schnorrVk := 3, commission := 0 })]
      (by rfl)).2⟩

/-- Helper: adjacent deduplication yields a sublist. -/
theorem dedupAdj_sublist (l : List (EventKey × StakeTableEvent)) :
    (dedupAdj l).Sublist l := by
  induction l with
  | nil => simp [dedupAdj]
  | cons a rest ih =>
    cases rest with
    | nil => simp [dedupAdj]
    | cons b rest2 =>
      rw [dedupAdj]
      split
      · exact (ih : (dedupAdj (b :: rest2)).Sublist (b :: rest2)).cons a
      · exact (ih : (dedupAdj (b :: rest2)).Sublist (b :: rest2)).cons₂ a

/-- Helper: adjacent deduplication preserves membership. -/
theorem mem_dedupAdj (l : List (EventKey × StakeTableEvent))
    (a : EventKey × StakeTableEvent) : a ∈ dedupAdj l ↔ a ∈ l := by
  induction l with
  | nil => simp [dedupAdj]
  | cons x rest ih =>
    cases rest with
    | nil => simp [dedupAdj]
    | cons y rest2 =>
      rw [dedupAdj]
      split
      · next hxy =>
        rw [ih]
        subst hxy
        simp only [List.mem_cons]
        constructor
        · intro h
          exact Or.inr h
        · rintro (h | h)
          · exact Or.inl h
          · exact h
      · simp only [List.mem_cons, ih]

/-- Helper: after adjacent deduplication, no two neighbours are equal. -/
theorem dedupAdj_chain_ne (l : List (EventKey × StakeTableEvent)) :
    (dedupAdj l).Chain' (· ≠ ·) := by
  have key : ∀ (n : Nat) (l : List (EventKey × StakeTableEvent)), l.length ≤ n →
      (dedupAdj l).Chain' (· ≠ ·) ∧
      ∀ x rest, l = x :: rest → ∃ tail, dedupAdj l = x :: tail := by
    intro n
    induction n with
    | zero =>
      intro l hl
      rw [Nat.le_zero, List.length_eq_zero] at hl
      subst hl
      exact ⟨by simp [dedupAdj], fun x rest h => by simp at h⟩
    | succ n ih =>
      intro l hl
      cases l with
      | nil => exact ⟨by simp [dedupAdj], fun x rest h => by simp at h⟩
      | cons x rest =>
        cases rest with
        | nil => exact ⟨by simp [dedupAdj], fun y r h => by
            injection h with h1 h2
            subst h1
            exact ⟨[], rfl⟩⟩
        | cons y rest2 =>
          simp only [List.length_cons] at hl
          have hlen : (y :: rest2).length ≤ n := by simp; omega
          obtain ⟨hchain, hhead⟩ := ih (y :: rest2) hlen
          obtain ⟨tail, htail⟩ := hhead y rest2 rfl
          rw [dedupAdj]
          split
          · next hxy => exact ⟨hchain, fun z r h => by
              injection h with h1 h2
              subst h1
              subst hxy
              exact ⟨tail, htail⟩⟩
          · next hxy =>
            refine ⟨?_, fun z r h => by
              injection h with h1 h2
              subst h1
              exact ⟨dedupAdj (y :: rest2), rfl⟩⟩
            rw [htail]
            rw [htail] at hchain
            exact List.Chain'.cons hxy hchain
  exact (key l.length l (Nat.le_refl _)).1

/-- Helper: a key-sorted, adjacently-distinct list whose keys determine its
elements is strictly key-sorted. -/
theorem pairwise_evLt_of_dedup (l : List (EventKey × StakeTableEvent))
    (hle : l.Pairwise evLe) (hne : l.Chain' (· ≠ ·))
    (hdet : ∀ p ∈ l, ∀ q ∈ l, p.1 = q.1 → p = q) :
    l.Pairwise evLt := by
  rw [← List.chain'_iff_pairwise]
  have hchle : l.Chain' evLe := List.chain'_iff_pairwise.mpr hle
  clear hle
  induction l with
  | nil => simp
  | cons x rest ih =>
    cases rest with
    | nil => simp
    | cons y rest2 =>
      rw [List.chain'_cons] at hchle hne ⊢
      refine ⟨?_, ih hne.2
        (fun p hp q hq => hdet p (List.mem_cons_of_mem _ hp) q (List.mem_cons_of_mem _ hq))
        hchle.2⟩
      have hkey : x.1 ≠ y.1 := fun hk => hne.1 (hdet x (List.mem_cons_self _ _) y
        (List.mem_cons_of_mem _ (List.mem_cons_self _ _)) hk)
      have h1 := hchle.1
      unfold evLe keyLe at h1
      unfold evLt keyLt
      rcases h1 with h | ⟨heq, hle2⟩
      · exact Or.inl h
      · right
        refine ⟨heq, ?_⟩
        have hsnd : x.1.2 ≠ y.1.2 := fun hs => hkey (Prod.ext heq hs)
        omega

/-- C8 (amended): for every list of keyed events in which any two entries
sharing an `EventKey` are equal (the key determines the event, as holds for
on-chain logs), sort-then-adjacent-dedup is idempotent under
self-concatenation: `dedup(sort(xs ++ xs)) = dedup(sort(xs))`. Without that
hypothesis the claim fails (see the counterexample). -/
theorem claim_C8_amended_sort_dedup_idempotent (xs : List (EventKey × StakeTableEvent))
    (hdet : KeyDet xs) :
    dedupAdj (sortByKey (xs ++ xs)) = dedupAdj (sortByKey xs) := by
  have hmemL : ∀ a, a ∈ dedupAdj (sortByKey (xs ++ xs)) ↔ a ∈ xs := by
    intro a
    rw [mem_dedupAdj]
    unfold sortByKey
    rw [(List.perm_insertionSort evLe _).mem_iff, List.mem_append, or_self]
  have hmemR : ∀ a, a ∈ dedupAdj (sortByKey xs) ↔ a ∈ xs := by
    intro a
    rw [mem_dedupAdj]
    unfold sortByKey
    rw [(List.perm_insertionSort evLe _).mem_iff]
  have hdetL : ∀ p ∈ dedupAdj (sortByKey (xs ++ xs)),
      ∀ q ∈ dedupAdj (sortByKey (xs ++ xs)), p.1 = q.1 → p = q :=
    fun p hp q hq => hdet p ((hmemL p).mp hp) q ((hmemL q).mp hq)
  have hdetR : ∀ p ∈ dedupAdj (sortByKey xs),
      ∀ q ∈ dedupAdj (sortByKey xs), p.1 = q.1 → p = q :=
    fun p hp q hq => hdet p ((hmemR p).mp hp) q ((hmemR q).mp hq)
  have hsortL : (dedupAdj (sortByKey (xs ++ xs))).Pairwise evLe :=
    (List.sorted_insertionSort evLe _).sublist (dedupAdj_sublist _)
  have hsortR : (dedupAdj (sortByKey xs)).Pairwise evLe :=
    (List.sorted_insertionSort evLe _).sublist (dedupAdj_sublist _)
  have hltL := pairwise_evLt_of_dedup _ hsortL (dedupAdj_chain_ne _) hdetL
  have hltR := pairwise_evLt_of_dedup _ hsortR (dedupAdj_chain_ne _) hdetR
  have hevLt_ne : ∀ {a b : EventKey × StakeTableEvent}, evLt a b → a ≠ b := by
    intro a b hab he
    subst he
    unfold evLt keyLt at hab
    omega
  have hndL : (dedupAdj (sortByKey (xs ++ xs))).Nodup :=
    hltL.imp fun hab => hevLt_ne hab
  have hndR : (dedupAdj (sortByKey xs)).Nodup :=
    hltR.imp fun hab => hevLt_ne hab
  have hperm := (List.perm_ext_iff_of_nodup hndL hndR).mpr
    (fun a => (hmemL a).trans (hmemR a).symm)
  exact List.eq_of_perm_of_sorted hperm hltL hltR

/-- C8 counterexample: two distinct events sharing the key `(0, 0)`. The
stable sort leaves the four entries of `xs ++ xs` interleaved, no two
adjacent entries are equal, and dedup removes nothing: the left-hand side
has four entries while `dedup(sort(xs))` has two. -/
theorem claim_C8_counterexample :
    dedupAdj (sortByKey
      ([((0, 0), .Deregister { validator := 0 }),
        ((0, 0), .Deregister { validator := 1 })] ++
       [((0, 0), .Deregister { validator := 0 }),
        ((0, 0), .Deregister { validator := 1 })]))
      ≠
    dedupAdj (sortByKey
      [((0, 0), .Deregister { validator := 0 }),
       ((0, 0), .Deregister { validator := 1 })]) := by
  decide

/-- Witness for the amended C8 at a concrete key-determined list. -/
theorem claim_C8_amended_witness :
    dedupAdj (sortByKey
      ([((1, 0), .Deregister { validator := 0 }),
        ((0, 0), .Deregister { validator := 1 })] ++
       [((1, 0), .Deregister { validator := 0 }),
        ((0, 0), .Deregister { validator := 1 })]))
      =
    dedupAdj (sortByKey
      [((1, 0), .Deregister { validator := 0 }),
       ((0, 0), .Deregister { validator := 1 })]) :=
  claim_C8_amended_sort_dedup_idempotent
    [((1, 0), .Deregister { validator := 0 }),
     ((0, 0), .Deregister { validator := 1 })]
    (by unfold KeyDet; decide)
